import Mathlib

/-!
Verification of the event-sourced tree-table engine
(src/utils/treeHelpers.ts, src/components/TreeTable/TreeTableSheet.tsx)
against its natural-language specification.

The embedding models JavaScript runtime values with the inductive `Jval`
(undefined, null, booleans, numbers, strings, plain objects, arrays).
Numbers are modeled as integers (no claim exercises fractional or NaN
arithmetic).  JavaScript objects are ordered association lists of
string-keyed values, which matches object-literal/spread semantics:
assigning an existing key updates it in place, assigning a fresh key
appends it.  Strict equality (`===`) on two distinct object or array
values is reference equality and therefore `false`; aliasing (the same
reference on both sides) is not representable in a pure embedding and is
not exercised by any claim, whose ids are all primitive strings.

Unbounded recursion in the source (`findAllDescendants`, tree building)
is embedded with an explicit fuel parameter; theorems show the fueled
computation stabilizes under the acyclicity precondition.
-/

namespace TT

/-- A JavaScript runtime value, as used by the tree-table source. -/
inductive Jval : Type where
  | vundef : Jval
  | vnull : Jval
  | vbool : Bool → Jval
  | vnum : Int → Jval
  | vstr : String → Jval
  | vobj : List (String × Jval) → Jval
  | varr : List Jval → Jval
deriving Repr

open Jval

/-- A plain JavaScript object: an insertion-ordered association list. -/
abbrev Obj := List (String × Jval)

/-- JavaScript strict equality (`===`) on modeled values.  On primitives it
is value equality; on objects and arrays it is reference equality, which is
`false` for the distinct values a pure embedding can compare. -/
def strictEq : Jval → Jval → Bool
  | vundef, vundef => true
  | vnull, vnull => true
  | vbool a, vbool b => a == b
  | vnum a, vnum b => a == b
  | vstr a, vstr b => a == b
  | _, _ => false

/-- JavaScript truthiness of a modeled value. -/
def truthy : Jval → Bool
  | vundef => false
  | vnull => false
  | vbool b => b
  | vnum n => n != 0
  | vstr s => s != ""
  | vobj _ => true
  | varr _ => true

/-- Property read `o[k]` on an object's field list: first binding wins,
`undefined` when absent. -/
def getKey : Obj → String → Jval
  | [], _ => vundef
  | (k, v) :: rest, key => if k = key then v else getKey rest key

/-- Property write `o[k] = v`: updates an existing binding in place,
appends a fresh one (object-literal / `Map`-style insertion order). -/
def setKey : Obj → String → Jval → Obj
  | [], key, v => [(key, v)]
  | (k, w) :: rest, key, v =>
      if k = key then (key, v) :: rest else (k, w) :: setKey rest key v

/-- Whether an object carries a binding for `key`. -/
def hasKey : Obj → String → Bool
  | [], _ => false
  | (k, _) :: rest, key => k = key || hasKey rest key

/-- Property access `v[k]` on an arbitrary value.  Only plain objects yield
their bindings; access on primitives and arrays (prototype methods, string
indices) is modeled as `undefined` — no claim exercises those accesses. -/
def getProp : Jval → String → Jval
  | vobj fields, key => getKey fields key
  | _, _ => vundef

/-- Own enumerable fields produced by a spread `{...v}`: objects contribute
their bindings, strings their index-keyed characters, arrays their
index-keyed elements, every other value nothing. -/
def spreadFields : Jval → Obj
  | vobj fields => fields
  | vstr s => (s.toList.enum.map fun p => (toString p.1, vstr (String.singleton p.2)))
  | varr elems => (elems.enum.map fun p => (toString p.1, p.2))
  | _ => []

/-- Auxiliary accumulator recursion behind `splitDot`. -/
def splitDotAux : List Char → List Char → List String
  | [], acc => [String.mk acc.reverse]
  | c :: cs, acc =>
      if c = '.' then String.mk acc.reverse :: splitDotAux cs []
      else splitDotAux cs (c :: acc)

/-- `path.split('.')` for a single-character separator: always yields at
least one (possibly empty) segment. -/
def splitDot (s : String) : List String :=
  splitDotAux s.toList []

/-- `getByPath` from treeHelpers.ts: `path.split('.').reduce((acc, part) =>
acc && acc[part], obj)`. -/
def getByPath (obj : Jval) (path : String) : Jval :=
  (splitDot path).foldl (fun acc part => if truthy acc then getProp acc part else acc) obj

/-- The segment loop of `setByPath`: every intermediate segment is
shallow-copied via spread before descending, the last segment is assigned. -/
def setParts : Obj → List String → Jval → Obj
  | fields, [], _ => fields
  | fields, [p], v => setKey fields p v
  | fields, p :: q :: rest, v =>
      setKey fields p (vobj (setParts (spreadFields (getKey fields p)) (q :: rest) v))

/-- `setByPath` from treeHelpers.ts: returns a new object with the spine of
`path` shallow-copied and the leaf set to `value`; the argument value is
never mutated (the embedding is pure, matching the immutable contract). -/
def setByPath (obj : Jval) (path : String) (value : Jval) : Jval :=
  vobj (setParts (spreadFields obj) (splitDot path) value)

-- Basic lemmas about the object model.

theorem getKey_setKey_self (fields : Obj) (key : String) (v : Jval) :
    getKey (setKey fields key v) key = v := by
  induction fields with
  | nil => simp [setKey, getKey]
  | cons kv rest ih =>
      obtain ⟨k, w⟩ := kv
      by_cases h : k = key
      · simp [setKey, h, getKey]
      · simp [setKey, h, getKey, ih]

theorem getKey_setKey_other (fields : Obj) (key other : String) (v : Jval)
    (hne : other ≠ key) : getKey (setKey fields key v) other = getKey fields other := by
  induction fields with
  | nil =>
      simp only [setKey, getKey]
      rw [if_neg (Ne.symm hne)]
  | cons kv rest ih =>
      obtain ⟨k, w⟩ := kv
      by_cases h : k = key
      · subst h
        simp only [setKey, if_pos rfl, getKey]
        rw [if_neg (Ne.symm hne), if_neg (Ne.symm hne)]
      · simp [setKey, h, getKey, ih]

theorem setKey_getKey_self (fields : Obj) (key : String)
    (h : hasKey fields key = true) : setKey fields key (getKey fields key) = fields := by
  induction fields with
  | nil => simp [hasKey] at h
  | cons kv rest ih =>
      obtain ⟨k, w⟩ := kv
      by_cases hk : k = key
      · subst hk
        simp [setKey, getKey]
      · simp [hasKey, hk] at h
        simp [setKey, getKey, hk, ih h]

theorem splitDotAux_ne_nil (cs : List Char) (acc : List Char) :
    splitDotAux cs acc ≠ [] := by
  induction cs generalizing acc with
  | nil => simp [splitDotAux]
  | cons c cs ih =>
      by_cases h : c = '.'
      · simp [splitDotAux, h]
      · simp [splitDotAux, h, ih]

theorem splitDot_ne_nil (s : String) : splitDot s ≠ [] :=
  splitDotAux_ne_nil s.toList []

theorem getFold_setParts (parts : List String) (fields : Obj) (v : Jval)
    (hne : parts ≠ []) :
    parts.foldl (fun acc part => if truthy acc then getProp acc part else acc)
      (vobj (setParts fields parts v)) = v := by
  induction parts generalizing fields with
  | nil => exact absurd rfl hne
  | cons p rest ih =>
      cases rest with
      | nil =>
          simp [setParts, truthy, getProp, getKey_setKey_self]
      | cons q rest2 =>
          have step :
              (if truthy (vobj (setParts fields (p :: q :: rest2) v)) then
                getProp (vobj (setParts fields (p :: q :: rest2) v)) p
              else vobj (setParts fields (p :: q :: rest2) v)) =
                vobj (setParts (spreadFields (getKey fields p)) (q :: rest2) v) := by
            simp [setParts, truthy, getProp, getKey_setKey_self]
          simp only [List.foldl_cons, step]
          exact ih (spreadFields (getKey fields p)) (by simp)

-- --- Descendant Resolver (findAllDescendants, treeHelpers.ts) ---

/-- `findAllDescendants` from treeHelpers.ts, with an explicit fuel
parameter standing for the unbounded recursion of the source (which has no
visited-set guard): one level of children is collected, then the resolver
recurses on each child id, appending results in child order. -/
def findAllDescendants : Nat → List Obj → Jval → List Jval
  | 0, _, _ => []
  | fuel + 1, items, targetId =>
      let children := items.filter (fun i => strictEq (getKey i "parentId") targetId)
      children.foldl
        (fun desc child => desc ++ findAllDescendants fuel items (getKey child "id"))
        (children.map fun c => getKey c "id")

/-- The transitive closure of the `parentId` child relation: `Desc items t x`
holds when `x` is the id of a record whose ancestor chain (via records of
`items`) reaches `t`. -/
inductive Desc (items : List Obj) : Jval → Jval → Prop where
  | base {t : Jval} {i : Obj} (hmem : i ∈ items)
      (hp : strictEq (getKey i "parentId") t = true) : Desc items t (getKey i "id")
  | step {t x : Jval} {i : Obj} (hmem : i ∈ items)
      (hp : strictEq (getKey i "parentId") t = true)
      (hd : Desc items (getKey i "id") x) : Desc items t x

theorem strictEq_eq {a b : Jval} (h : strictEq a b = true) : a = b := by
  cases a <;> cases b <;> simp_all [strictEq]

theorem mem_foldl_append {α β : Type} (l : List α) (init : List β)
    (f : α → List β) (x : β) :
    (x ∈ l.foldl (fun acc a => acc ++ f a) init) ↔ x ∈ init ∨ ∃ a ∈ l, x ∈ f a := by
  induction l generalizing init with
  | nil => simp
  | cons a rest ih =>
      simp only [List.foldl_cons, ih, List.mem_append, List.mem_cons]
      constructor
      · rintro (⟨h | h⟩ | ⟨b, hb, hx⟩)
        · exact Or.inl h
        · exact Or.inr ⟨a, Or.inl rfl, h⟩
        · exact Or.inr ⟨b, Or.inr hb, hx⟩
      · rintro (h | ⟨b, hb | hb, hx⟩)
        · exact Or.inl (Or.inl h)
        · exact Or.inl (Or.inr (hb ▸ hx))
        · exact Or.inr ⟨b, hb, hx⟩

theorem foldl_append_congr {α β : Type} (l : List α) (init : List β)
    (f g : α → List β) (h : ∀ a ∈ l, f a = g a) :
    l.foldl (fun acc a => acc ++ f a) init = l.foldl (fun acc a => acc ++ g a) init := by
  induction l generalizing init with
  | nil => rfl
  | cons a rest ih =>
      simp only [List.foldl_cons]
      rw [h a (List.mem_cons_self a rest)]
      exact ih _ (fun b hb => h b (List.mem_cons_of_mem a hb))

/-- Membership in one unfolding of the fueled resolver. -/
theorem mem_findAllDescendants_succ (fuel : Nat) (items : List Obj) (t x : Jval) :
    x ∈ findAllDescendants (fuel + 1) items t ↔
      (∃ i ∈ items, strictEq (getKey i "parentId") t = true ∧ x = getKey i "id") ∨
      (∃ i ∈ items, strictEq (getKey i "parentId") t = true ∧
        x ∈ findAllDescendants fuel items (getKey i "id")) := by
  simp only [findAllDescendants, mem_foldl_append, List.mem_map, List.mem_filter]
  constructor
  · rintro (⟨c, ⟨hc, hp⟩, hx⟩ | ⟨c, ⟨hc, hp⟩, hx⟩)
    · exact Or.inl ⟨c, hc, hp, hx.symm⟩
    · exact Or.inr ⟨c, hc, hp, hx⟩
  · rintro (⟨c, hc, hp, hx⟩ | ⟨c, hc, hp, hx⟩)
    · exact Or.inl ⟨c, ⟨hc, hp⟩, hx.symm⟩
    · exact Or.inr ⟨c, ⟨hc, hp⟩, hx⟩

/-- With no matching children, the resolver yields `[]` at any fuel. -/
theorem findAllDescendants_no_children (fuel : Nat) (items : List Obj) (t : Jval)
    (h : items.filter (fun i => strictEq (getKey i "parentId") t) = []) :
    findAllDescendants fuel items t = [] := by
  cases fuel with
  | zero => rfl
  | succ f => simp [findAllDescendants, h]

/-- Under a rank function that strictly decreases from every record's
`parentId` to its `id` (a certificate that the parent-reference graph is
acyclic), the fueled resolver's output is the same list at every fuel at
least the target's rank. -/
theorem findAllDescendants_stab {items : List Obj} {rank : Jval → Nat}
    (hr : ∀ i ∈ items, rank (getKey i "id") < rank (getKey i "parentId")) :
    ∀ (n : Nat) (t : Jval) (f g : Nat), rank t ≤ n → rank t ≤ f → rank t ≤ g →
      findAllDescendants f items t = findAllDescendants g items t := by
  intro n
  induction n with
  | zero =>
      intro t f g hn _ _
      have hz : rank t = 0 := Nat.le_zero.mp hn
      have hempty : items.filter (fun i => strictEq (getKey i "parentId") t) = [] := by
        rw [List.filter_eq_nil_iff]
        intro i hi hp
        have ht := strictEq_eq hp
        have := hr i hi
        rw [ht, hz] at this
        exact Nat.not_lt_zero _ this
      rw [findAllDescendants_no_children f items t hempty,
        findAllDescendants_no_children g items t hempty]
  | succ n ih =>
      intro t f g _ hf hg
      by_cases hz : rank t = 0
      · have hempty : items.filter (fun i => strictEq (getKey i "parentId") t) = [] := by
          rw [List.filter_eq_nil_iff]
          intro i hi hp
          have ht := strictEq_eq hp
          have := hr i hi
          rw [ht, hz] at this
          exact Nat.not_lt_zero _ this
        rw [findAllDescendants_no_children f items t hempty,
          findAllDescendants_no_children g items t hempty]
      · have hpos : 1 ≤ rank t := Nat.one_le_iff_ne_zero.mpr hz
        obtain ⟨f', rfl⟩ : ∃ f', f = f' + 1 :=
          ⟨f - 1, by omega⟩
        obtain ⟨g', rfl⟩ : ∃ g', g = g' + 1 :=
          ⟨g - 1, by omega⟩
        simp only [findAllDescendants]
        apply foldl_append_congr
        intro c hc
        rw [List.mem_filter] at hc
        obtain ⟨hcmem, hcp⟩ := hc
        have hct := strictEq_eq hcp
        have hlt : rank (getKey c "id") < rank t := by
          have := hr c hcmem
          rwa [hct] at this
        exact ih (getKey c "id") f' g' (by omega) (by omega) (by omega)

/-- Soundness: anything the fueled resolver reports is a true transitive
descendant. -/
theorem findAllDescendants_sound (items : List Obj) :
    ∀ (fuel : Nat) (t x : Jval), x ∈ findAllDescendants fuel items t → Desc items t x := by
  intro fuel
  induction fuel with
  | zero => intro t x hx; simp [findAllDescendants] at hx
  | succ f ih =>
      intro t x hx
      rw [mem_findAllDescendants_succ] at hx
      rcases hx with ⟨i, hi, hp, rfl⟩ | ⟨i, hi, hp, hx⟩
      · exact Desc.base hi hp
      · exact Desc.step hi hp (ih _ _ hx)

/-- Completeness: under the rank certificate, every true descendant is
reported once the fuel reaches the target's rank. -/
theorem findAllDescendants_complete {items : List Obj} {rank : Jval → Nat}
    (hr : ∀ i ∈ items, rank (getKey i "id") < rank (getKey i "parentId"))
    {t x : Jval} (hd : Desc items t x) :
    ∀ fuel, rank t ≤ fuel → x ∈ findAllDescendants fuel items t := by
  induction hd with
  | @base t i hmem hp =>
      intro fuel hfuel
      have hlt : rank (getKey i "id") < rank t := by
        have := hr i hmem
        rwa [strictEq_eq hp] at this
      obtain ⟨f, rfl⟩ : ∃ f, fuel = f + 1 := ⟨fuel - 1, by omega⟩
      rw [mem_findAllDescendants_succ]
      exact Or.inl ⟨i, hmem, hp, rfl⟩
  | @step t x i hmem hp _ ih =>
      intro fuel hfuel
      have hlt : rank (getKey i "id") < rank t := by
        have := hr i hmem
        rwa [strictEq_eq hp] at this
      obtain ⟨f, rfl⟩ : ∃ f, fuel = f + 1 := ⟨fuel - 1, by omega⟩
      rw [mem_findAllDescendants_succ]
      exact Or.inr ⟨i, hmem, hp, ih f (by omega)⟩

/-- Under the rank certificate and sufficient fuel, membership in the
resolver's output coincides with the mathematical closure. -/
theorem mem_findAllDescendants_iff {items : List Obj} {rank : Jval → Nat}
    (hr : ∀ i ∈ items, rank (getKey i "id") < rank (getKey i "parentId"))
    {t x : Jval} {fuel : Nat} (hfuel : rank t ≤ fuel) :
    x ∈ findAllDescendants fuel items t ↔ Desc items t x :=
  ⟨findAllDescendants_sound items fuel t x,
   fun hd => findAllDescendants_complete hr hd fuel hfuel⟩

/-- Every element of the resolver's output is the id of some record. -/
theorem findAllDescendants_mem_ids (items : List Obj) :
    ∀ (fuel : Nat) (t x : Jval), x ∈ findAllDescendants fuel items t →
      ∃ i ∈ items, x = getKey i "id" := by
  intro fuel
  induction fuel with
  | zero => intro t x hx; simp [findAllDescendants] at hx
  | succ f ih =>
      intro t x hx
      rw [mem_findAllDescendants_succ] at hx
      rcases hx with ⟨i, hi, _, rfl⟩ | ⟨i, _, _, hx⟩
      · exact ⟨i, hi, rfl⟩
      · exact ih _ _ hx

-- A two-record collection whose parent references form a cycle: the
-- resolver's recursion never settles, the output strictly grows with fuel.

/-- Record with id "a" whose parent is "b". -/
def cycA : Obj := [("id", vstr "a"), ("parentId", vstr "b")]

/-- Record with id "b" whose parent is "a". -/
def cycB : Obj := [("id", vstr "b"), ("parentId", vstr "a")]

/-- A record collection with a parent cycle between "a" and "b". -/
def cycItems : List Obj := [cycA, cycB]

theorem findAllDescendants_cyc_length :
    ∀ f : Nat, (findAllDescendants f cycItems (vstr "a")).length = f ∧
      (findAllDescendants f cycItems (vstr "b")).length = f := by
  intro f
  induction f with
  | zero => exact ⟨rfl, rfl⟩
  | succ f ih =>
      have ha : findAllDescendants (f + 1) cycItems (vstr "a") =
          [vstr "b"] ++ findAllDescendants f cycItems (vstr "b") := by
        simp [findAllDescendants, cycItems, cycA, cycB, strictEq, getKey]
      have hb : findAllDescendants (f + 1) cycItems (vstr "b") =
          [vstr "a"] ++ findAllDescendants f cycItems (vstr "a") := by
        simp [findAllDescendants, cycItems, cycA, cycB, strictEq, getKey]
      constructor
      · rw [ha]; simp [ih.2]
      · rw [hb]; simp [ih.1]

/-- **C9.** Under an acyclicity certificate (a rank strictly decreasing
from each record's `parentId` to its `id`) the Descendant Resolver
stabilizes: every fuel of at least `rank target` returns the same finite
id list, so the source recursion terminates with that list.  The
precondition is required: on the cyclic two-record collection `cycItems`
no amount of fuel stabilizes the computation (the output strictly grows
with every unfolding), i.e. the unguarded recursion diverges. -/
theorem findAllDescendants_terminates :
    (∀ (items : List Obj) (rank : Jval → Nat),
      (∀ i ∈ items, rank (getKey i "id") < rank (getKey i "parentId")) →
      ∀ (target : Jval) (f : Nat), rank target ≤ f →
        findAllDescendants f items target =
          findAllDescendants (rank target) items target) ∧
    (∀ N, findAllDescendants (N + 1) cycItems (vstr "a") ≠
      findAllDescendants N cycItems (vstr "a")) := by
  constructor
  · intro items rank hr target f hf
    exact findAllDescendants_stab hr (rank target) target f (rank target) le_rfl hf le_rfl
  · intro N h
    have h1 := (findAllDescendants_cyc_length (N + 1)).1
    have h2 := (findAllDescendants_cyc_length N).1
    rw [h] at h1
    omega

/-- Rank certificate for the two-record demo collection
(root "a", child "b"). -/
def demoRank : Jval → Nat
  | vnull => 2
  | vstr s => if s = "a" then 1 else 0
  | _ => 0

/-- Record with id "a" and null parent. -/
def demoA : Obj := [("id", vstr "a"), ("parentId", vnull)]

/-- Record with id "b" whose parent is "a". -/
def demoB : Obj := [("id", vstr "b"), ("parentId", vstr "a")]

/-- The acyclic two-record demo collection. -/
def demoItems : List Obj := [demoA, demoB]

/-- Witness for C9: the stabilization half applied to the concrete acyclic
collection `demoItems` with its explicit rank certificate, at fuel 5. -/
theorem findAllDescendants_terminates_witness :
    findAllDescendants 5 demoItems (vstr "a") =
      findAllDescendants (demoRank (vstr "a")) demoItems (vstr "a") :=
  findAllDescendants_terminates.1 demoItems demoRank (by decide) (vstr "a") 5 (by decide)

-- --- Delete operation (handleDelete + NODE_DELETED case, TreeTableSheet.tsx) ---

/-- The optimistic transformation of the `NODE_DELETED` case of
`dispatchEvent`: keep the records whose row key is not listed (the
`includes` membership test is strict equality). -/
def applyNodeDeleted (rowKey : String) (items : List Obj)
    (allRemovedNodeIds : List Jval) : List Obj :=
  items.filter (fun i => !(allRemovedNodeIds.any (fun a => strictEq a (getKey i rowKey))))

/-- `handleDelete`: resolve all descendants of the target, prepend the
target itself, and dispatch the removal.  The fuel parameter stands for the
resolver's unbounded recursion. -/
def handleDelete (fuel : Nat) (rowKey : String) (items : List Obj) (nodeId : String) :
    List Obj :=
  applyNodeDeleted rowKey items (vstr nodeId :: findAllDescendants fuel items (vstr nodeId))

/-- **C4.** With string ids, an acyclicity certificate, and fuel at least
the target's rank, deleting node `N` keeps a record exactly when its id is
neither `N` nor a transitive descendant of `N` — so precisely
`{N} ∪ descendants(N)` is removed and nothing else — and no surviving
record has `parentId` equal to `N`. -/
theorem handleDelete_exact {items : List Obj} {rank : Jval → Nat}
    (hr : ∀ i ∈ items, rank (getKey i "id") < rank (getKey i "parentId"))
    (hids : ∀ i ∈ items, ∃ s, getKey i "id" = vstr s)
    (nodeId : String) {fuel : Nat} (hfuel : rank (vstr nodeId) ≤ fuel) :
    (∀ i, i ∈ handleDelete fuel "id" items nodeId ↔
      (i ∈ items ∧ getKey i "id" ≠ vstr nodeId ∧
        ¬ Desc items (vstr nodeId) (getKey i "id"))) ∧
    (∀ i ∈ handleDelete fuel "id" items nodeId,
      strictEq (getKey i "parentId") (vstr nodeId) = false) := by
  have hchar : ∀ i, i ∈ handleDelete fuel "id" items nodeId ↔
      (i ∈ items ∧ getKey i "id" ≠ vstr nodeId ∧
        ¬ Desc items (vstr nodeId) (getKey i "id")) := by
    intro i
    unfold handleDelete applyNodeDeleted
    rw [List.mem_filter]
    constructor
    · rintro ⟨hi, hpred⟩
      obtain ⟨s, hs⟩ := hids i hi
      simp only [List.any_cons, Bool.not_eq_true', Bool.or_eq_false_iff,
        List.any_eq_false] at hpred
      obtain ⟨hself, hdesc⟩ := hpred
      refine ⟨hi, ?_, ?_⟩
      · intro heq
        rw [heq] at hself
        simp [strictEq] at hself
      · intro hd
        have hmem := findAllDescendants_complete hr hd fuel hfuel
        have := hdesc _ hmem
        rw [hs] at this
        simp [strictEq] at this
    · rintro ⟨hi, hne, hnd⟩
      obtain ⟨s, hs⟩ := hids i hi
      refine ⟨hi, ?_⟩
      simp only [List.any_cons, Bool.not_eq_true', Bool.or_eq_false_iff,
        List.any_eq_false]
      constructor
      · rw [hs]
        by_cases h : nodeId = s
        · exact absurd (h ▸ hs) hne
        · simp [strictEq, h]
      · intro a ha
        obtain ⟨c, hc, rfl⟩ := findAllDescendants_mem_ids items fuel _ a ha
        obtain ⟨sc, hsc⟩ := hids c hc
        rw [hs, hsc]
        by_cases h : sc = s
        · exfalso
          apply hnd
          have hd := findAllDescendants_sound items fuel _ _ ha
          rw [hsc, h, ← hs] at hd
          exact hd
        · simp [strictEq, h]
  refine ⟨hchar, ?_⟩
  intro i hi
  obtain ⟨himem, _, hnd⟩ := (hchar i).mp hi
  cases hp : strictEq (getKey i "parentId") (vstr nodeId) with
  | false => rfl
  | true => exact absurd (Desc.base himem hp) hnd

/-- Witness for C4: the characterization instantiated on the concrete
two-record collection, target "a", checked at the child record. -/
theorem handleDelete_exact_witness :
    demoB ∈ handleDelete 1 "id" demoItems "a" ↔
      (demoB ∈ demoItems ∧ getKey demoB "id" ≠ vstr "a" ∧
        ¬ Desc demoItems (vstr "a") (getKey demoB "id")) :=
  (@handleDelete_exact demoItems demoRank (by decide)
    (by
      intro i hi
      simp only [demoItems, List.mem_cons, List.not_mem_nil, or_false] at hi
      rcases hi with rfl | rfl
      · exact ⟨"a", rfl⟩
      · exact ⟨"b", rfl⟩)
    "a" 1 (by decide)).1 demoB

-- --- Event model and the remaining reducer cases (TreeTableSheet.tsx) ---

/-- The six event kinds dispatched by the engine. -/
inductive EventType : Type where
  | NODE_DATA_UPDATED : EventType
  | NODE_MOVED : EventType
  | NODE_CREATED : EventType
  | NODE_DELETED : EventType
  | COLUMN_CONFIG_UPDATED : EventType
  | IMPORT_COMPLETED : EventType
deriving Repr, DecidableEq

/-- An emitted event: its kind and its payload object.  The source also
stamps a fresh uuid and an ISO timestamp; both are environmental
non-determinism irrelevant to every claim and are not modeled. -/
structure Event : Type where
  etype : EventType
  payload : Obj
deriving Repr

/-- JavaScript `Set.has` (SameValueZero membership, modeled by `strictEq`). -/
def setMem (s : List Jval) (x : Jval) : Bool :=
  s.any (fun a => strictEq a x)

/-- JavaScript `Set.add`: append unless already present. -/
def setAdd (s : List Jval) (x : Jval) : List Jval :=
  if setMem s x then s else s ++ [x]

theorem setMem_setAdd (s : List Jval) (x q : Jval) :
    setMem (setAdd s x) q = (setMem s q || strictEq x q) := by
  unfold setAdd
  by_cases h : setMem s x = true
  · rw [if_pos h]
    cases hq : strictEq x q
    · simp
    · have hxq : x = q := strictEq_eq hq
      subst hxq
      simp [h]
  · rw [if_neg h]
    unfold setMem
    simp [List.any_append]

/-- The `NODE_CREATED` case of `dispatchEvent`: append
`{...initialData, [rowKey]: nodeId, parentId}` to the collection; when the
`parentId` value is truthy, add it to the expansion set.  Returns the new
(items, expandedIds) pair. -/
def applyNodeCreated (rowKey : String) (items : List Obj) (expandedIds : List Jval)
    (nodeId parentId : Jval) (initialData : Obj) : List Obj × List Jval :=
  (items ++ [setKey (setKey initialData rowKey nodeId) "parentId" parentId],
   if truthy parentId then setAdd expandedIds parentId else expandedIds)

theorem getKey_not_hasKey (fields : Obj) (key : String)
    (h : hasKey fields key = false) : getKey fields key = vundef := by
  induction fields with
  | nil => rfl
  | cons kv rest ih =>
      obtain ⟨k, w⟩ := kv
      simp only [hasKey, Bool.or_eq_false_iff, decide_eq_false_iff_not] at h
      simp [getKey, h.1, ih h.2]

/-- Counterexample for **C7** as stated: a create intent whose `parentId`
is the empty string — a non-null value — does not add it to the expansion
state, because the source guards with JavaScript truthiness
(`if (parentId)`), not a null check. -/
theorem applyNodeCreated_empty_parent_not_expanded :
    vstr "" ≠ vnull ∧
    setMem (applyNodeCreated "id" [] [] (vstr "n") (vstr "") []).2 (vstr "") = false := by
  constructor
  · intro h
    exact Jval.noConfusion h
  · rfl

/-- **C7 (amended).** A create intent appends exactly one record to the end
of the collection — carrying the new id under the row key, the given
`parentId`, and otherwise exactly the initial fields — leaving all existing
records unchanged; the parent id joins the expansion state if and only if it
is truthy (non-null and non-empty), not merely non-null. -/
theorem applyNodeCreated_spec (rowKey : String) (hrk : rowKey ≠ "parentId")
    (items : List Obj) (expandedIds : List Jval) (nodeId parentId : Jval)
    (initialData : Obj) :
    (applyNodeCreated rowKey items expandedIds nodeId parentId initialData).1 =
      items ++ [setKey (setKey initialData rowKey nodeId) "parentId" parentId] ∧
    getKey (setKey (setKey initialData rowKey nodeId) "parentId" parentId) rowKey = nodeId ∧
    getKey (setKey (setKey initialData rowKey nodeId) "parentId" parentId) "parentId" =
      parentId ∧
    (∀ k, k ≠ rowKey → k ≠ "parentId" →
      getKey (setKey (setKey initialData rowKey nodeId) "parentId" parentId) k =
        getKey initialData k) ∧
    (∀ q, setMem (applyNodeCreated rowKey items expandedIds nodeId parentId initialData).2 q =
      (setMem expandedIds q || (truthy parentId && strictEq parentId q))) := by
  refine ⟨rfl, ?_, ?_, ?_, ?_⟩
  · rw [getKey_setKey_other _ _ _ _ hrk, getKey_setKey_self]
  · rw [getKey_setKey_self]
  · intro k hk1 hk2
    rw [getKey_setKey_other _ _ _ _ hk2, getKey_setKey_other _ _ _ _ hk1]
  · intro q
    unfold applyNodeCreated
    cases ht : truthy parentId
    · simp
    · simp [setMem_setAdd]

/-- Witness for C7's amended theorem: a concrete create under parent "p"
registers "p" in the expansion state. -/
theorem applyNodeCreated_spec_witness :
    setMem (applyNodeCreated "id" [] [] (vstr "n") (vstr "p") []).2 (vstr "p") =
      (setMem [] (vstr "p") || (truthy (vstr "p") && strictEq (vstr "p") (vstr "p"))) :=
  (applyNodeCreated_spec "id" (by decide) [] [] (vstr "n") (vstr "p") []).2.2.2.2 (vstr "p")

-- --- Import / export (IMPORT_COMPLETED case and getSnapshot) ---

/-- The `IMPORT_COMPLETED` case of `dispatchEvent`:
`setItems(payload.data); if (payload.config) setColumns(payload.config)`.
Returns the new (record collection, column schema) pair; both components
are arbitrary JavaScript values since the source applies no shape check. -/
def applyImportCompleted (_itemsPrev columns payload : Jval) : Jval × Jval :=
  (getProp payload "data",
   if truthy (getProp payload "config") then getProp payload "config" else columns)

/-- `getSnapshot` of the imperative handle: wraps the current schema and
collection with a metadata object (whose timestamp content is
environmental and passed in here). -/
def getSnapshot (meta columns items : Jval) : Jval :=
  vobj [("meta", meta), ("config", columns), ("data", items)]

/-- Counterexample for **C3** as stated: an import payload with no `data`
member is not rejected — the record collection becomes `undefined` instead
of keeping its prior (empty-array) value, because the reducer assigns
`payload.data` unconditionally. -/
theorem applyImportCompleted_missing_data_not_rejected :
    (applyImportCompleted (varr []) (varr []) (vobj [])).1 ≠ varr [] := by
  intro h
  exact Jval.noConfusion h

/-- **C3 (amended).** The reducer performs no input-shape validation: after
an import the record collection is exactly `payload.data`, whatever its
shape (`undefined` when the member is missing, so a payload without a
record array corrupts rather than preserves the prior collection); the
schema half of the claim stands — when `config` is absent the column schema
keeps its current value. -/
theorem applyImportCompleted_spec (items columns : Jval) (payload : Obj) :
    (applyImportCompleted items columns (vobj payload)).1 = getKey payload "data" ∧
    (hasKey payload "config" = false →
      (applyImportCompleted items columns (vobj payload)).2 = columns) := by
  constructor
  · rfl
  · intro h
    simp only [applyImportCompleted, getProp]
    rw [getKey_not_hasKey payload "config" h]
    simp [truthy]

/-- Witness for C3's amended theorem: importing a config-less payload keeps
the current schema. -/
theorem applyImportCompleted_spec_witness :
    (applyImportCompleted (varr []) (varr [vstr "c"]) (vobj [("data", varr [])])).2 =
      varr [vstr "c"] :=
  (applyImportCompleted_spec (varr []) (varr [vstr "c"]) [("data", varr [])]).2 (by rfl)

/-- **C8.** Import of an exported snapshot restores both the record
collection and the column schema exactly:
`applyImportCompleted (getSnapshot ...) = (items, columns)` for every
state (the schema branch holds whether or not the schema value is truthy,
since an untaken `if (payload.config)` leaves the current — identical —
schema in place). -/
theorem importSnapshot_exportSnapshot (meta items columns : Jval) :
    applyImportCompleted items columns (getSnapshot meta columns items) = (items, columns) := by
  unfold applyImportCompleted getSnapshot getProp
  simp [getKey]

-- --- Field update (handleCellChange + NODE_DATA_UPDATED case) ---

/-- `setByPath` specialized to a record object, returning the updated
object's fields (`setByPath` on an object input always returns an object
whose fields are `setParts` of the original fields). -/
def setByPathFields (item : Obj) (path : String) (value : Jval) : Obj :=
  setParts (spreadFields (vobj item)) (splitDot path) value

/-- The `NODE_DATA_UPDATED` case of `dispatchEvent`: replace the matching
record via `setByPath`, keep every other record. -/
def applyNodeDataUpdated (rowKey : String) (items : List Obj) (nodeId : Jval)
    (field : String) (newValue : Jval) : List Obj :=
  items.map (fun item =>
    if strictEq (getKey item rowKey) nodeId then setByPathFields item field newValue
    else item)

/-- `handleCellChange`: look up the record to capture the old value
(`undefined` when the node id matches nothing), emit exactly one
`NODE_DATA_UPDATED` event, and apply the optimistic update. -/
def handleCellChange (rowKey : String) (items : List Obj) (nodeId : Jval)
    (field : String) (value : Jval) : List Event × List Obj :=
  let oldValue :=
    match items.find? (fun i => strictEq (getKey i rowKey) nodeId) with
    | some item => getByPath (vobj item) field
    | none => vundef
  ([⟨EventType.NODE_DATA_UPDATED,
      [("nodeId", nodeId), ("field", vstr field), ("oldValue", oldValue),
        ("newValue", value)]⟩],
   applyNodeDataUpdated rowKey items nodeId field value)

/-- **C10.** A field update whose node id matches no record leaves the
record collection unchanged while still emitting exactly one
`NODE_DATA_UPDATED` event whose `oldValue` is `undefined`. -/
theorem handleCellChange_missing_node (rowKey : String) (items : List Obj)
    (nodeId : Jval) (field : String) (value : Jval)
    (h : ∀ i ∈ items, strictEq (getKey i rowKey) nodeId = false) :
    (handleCellChange rowKey items nodeId field value).2 = items ∧
    ∃ pl, (handleCellChange rowKey items nodeId field value).1 =
      [⟨EventType.NODE_DATA_UPDATED, pl⟩] ∧ getKey pl "oldValue" = vundef := by
  have hfind : items.find? (fun i => strictEq (getKey i rowKey) nodeId) = none := by
    rw [List.find?_eq_none]
    intro i hi
    simp [h i hi]
  constructor
  · unfold handleCellChange applyNodeDataUpdated
    have : ∀ i ∈ items,
        (if strictEq (getKey i rowKey) nodeId then setByPathFields i field value else i) = i := by
      intro i hi
      rw [h i hi]
      simp
    calc items.map _ = items.map id := List.map_congr_left this
      _ = items := List.map_id items
  · refine ⟨[("nodeId", nodeId), ("field", vstr field), ("oldValue", vundef),
      ("newValue", value)], ?_, ?_⟩
    · unfold handleCellChange
      rw [hfind]
    · rfl

/-- Witness for C10: a concrete update aimed at the absent id "zzz" leaves
the demo collection unchanged. -/
theorem handleCellChange_missing_node_witness :
    (handleCellChange "id" demoItems (vstr "zzz") "name" (vnum 1)).2 = demoItems :=
  (handleCellChange_missing_node "id" demoItems (vstr "zzz") "name" (vnum 1) (by decide)).1

-- --- Tree Builder and Visibility Flattener (treeHelpers.ts) ---

/-- JS `Map.set` on the id→node index: overwriting an existing key (under
SameValueZero, modeled by `strictEq`) keeps its insertion position; a fresh
key is appended. -/
def mapSet (m : List (Jval × Obj)) (k : Jval) (v : Obj) : List (Jval × Obj) :=
  match m with
  | [] => [(k, v)]
  | (k0, v0) :: rest =>
      if strictEq k0 k then (k0, v) :: rest else (k0, v0) :: mapSet rest k v

/-- JS `Map.get`: the unique entry whose key matches, if any. -/
def mapGet (m : List (Jval × Obj)) (k : Jval) : Option (Jval × Obj) :=
  match m with
  | [] => none
  | (k0, v0) :: rest => if strictEq k0 k then some (k0, v0) else mapGet rest k

/-- The id→node index of `buildTree`: one `Map.set` per record in
collection order.  The stored value models the clone `{...item, children:
[]}`; the mutable `children` array is carried structurally by `TNode`. -/
def mkEntries (items : List Obj) : List (Jval × Obj) :=
  items.foldl (fun m item => mapSet m (getKey item "id") item) []

/-- A built tree node: the cloned record's own fields plus the `children`
array that `buildTree` populates by pushing into the parent. -/
inductive TNode : Type where
  | mk : Obj → List TNode → TNode

/-- The record fields of a built node. -/
def TNode.fields : TNode → Obj
  | .mk f _ => f

/-- The children of a built node. -/
def TNode.children : TNode → List TNode
  | .mk _ c => c

/-- Whether `buildTree`'s forEach pass files this entry under the entry
with key `ke`: its `parentId` differs from `rootId` and the map lookup of
its `parentId` lands on that entry.  Children keep map (= collection)
order. -/
def childEntries (entries : List (Jval × Obj)) (rootId ke : Jval) :
    List (Jval × Obj) :=
  entries.filter (fun c =>
    !strictEq (getKey c.2 "parentId") rootId &&
      (match mapGet entries (getKey c.2 "parentId") with
       | some e => strictEq e.1 ke
       | none => false))

/-- Recursive materialization of one node and its pushed-children subtree.
The fuel bounds the (reference-mutating, possibly cyclic) object graph of
the source; nodes reachable from the roots always sit on acyclic chains, so
`buildTree` passes fuel sufficient for them. -/
def buildNode : Nat → List (Jval × Obj) → Jval → (Jval × Obj) → TNode
  | 0, _, _, e => TNode.mk e.2 []
  | fuel + 1, entries, rootId, e =>
      TNode.mk e.2 ((childEntries entries rootId e.1).map (buildNode fuel entries rootId))

/-- Whether `buildTree`'s forEach pass pushes this entry to the roots:
either its `parentId` strictly equals `rootId`, or the parent lookup fails
(an orphan) and `rootId` is literally `null`. -/
def isRoot (entries : List (Jval × Obj)) (rootId : Jval) (e : Jval × Obj) : Bool :=
  strictEq (getKey e.2 "parentId") rootId ||
    ((mapGet entries (getKey e.2 "parentId")).isNone && strictEq rootId vnull)

/-- `buildTree` from treeHelpers.ts: index every record by id (later
duplicates overwrite in place), then emit the root nodes in map order with
their children populated recursively. -/
def buildTree (items : List Obj) (rootId : Jval) : List TNode :=
  ((mkEntries items).filter (isRoot (mkEntries items) rootId)).map
    (buildNode (mkEntries items).length (mkEntries items) rootId)

/-- A visible row: the node's record fields annotated with its depth
(the source's `{...node, depth}` clone). -/
structure Row : Type where
  fields : Obj
  depth : Nat

/-- `flattenVisibleTree` from treeHelpers.ts: depth-first pre-order; always
emit the node, descend only when its id is in the expansion set and it has
at least one child. -/
def flattenVisibleTree : List TNode → List Jval → Nat → List Row
  | [], _, _ => []
  | TNode.mk f c :: rest, expandedIds, depth =>
      ((⟨f, depth⟩ : Row) ::
        (if setMem expandedIds (getKey f "id") && !c.isEmpty then
          flattenVisibleTree c expandedIds (depth + 1)
        else [])) ++
      flattenVisibleTree rest expandedIds depth

-- Supporting lemmas for C6.

theorem mapSet_append (m : List (Jval × Obj)) (k : Jval) (v : Obj)
    (h : ∀ e ∈ m, strictEq e.1 k = false) : mapSet m k v = m ++ [(k, v)] := by
  induction m with
  | nil => rfl
  | cons e rest ih =>
      obtain ⟨k0, v0⟩ := e
      have h0 : strictEq k0 k = false := h (k0, v0) (List.mem_cons_self _ _)
      simp [mapSet, h0]
      exact ih (fun e he => h e (List.mem_cons_of_mem _ he))

theorem mkEntries_aux (l : List Obj) :
    ∀ m : List (Jval × Obj),
      (∀ e ∈ m, ∀ i ∈ l, strictEq e.1 (getKey i "id") = false) →
      l.Pairwise (fun i j => strictEq (getKey i "id") (getKey j "id") = false) →
      l.foldl (fun m item => mapSet m (getKey item "id") item) m =
        m ++ l.map (fun i => (getKey i "id", i)) := by
  induction l with
  | nil => intro m _ _; simp
  | cons i0 l ih =>
      intro m hm hpw
      have hset : mapSet m (getKey i0 "id") i0 = m ++ [(getKey i0 "id", i0)] :=
        mapSet_append m _ i0 (fun e he => hm e he i0 (List.mem_cons_self _ _))
      simp only [List.foldl_cons, hset]
      rw [List.pairwise_cons] at hpw
      rw [ih (m ++ [(getKey i0 "id", i0)])
        (by
          intro e he j hj
          rcases List.mem_append.mp he with he | he
          · exact hm e he j (List.mem_cons_of_mem _ hj)
          · rcases List.mem_singleton.mp he with rfl
            exact hpw.1 j hj)
        hpw.2]
      simp

theorem mkEntries_eq_map {items : List Obj}
    (hpw : items.Pairwise (fun i j => strictEq (getKey i "id") (getKey j "id") = false)) :
    mkEntries items = items.map (fun i => (getKey i "id", i)) := by
  have := mkEntries_aux items [] (by intro e he; simp at he) hpw
  simpa [mkEntries] using this

theorem mapGet_isSome_of_mem (m : List (Jval × Obj)) (e : Jval × Obj) (k : Jval)
    (hmem : e ∈ m) (hk : strictEq e.1 k = true) : (mapGet m k).isSome = true := by
  induction m with
  | nil => simp at hmem
  | cons f rest ih =>
      obtain ⟨k0, v0⟩ := f
      rcases List.mem_cons.mp hmem with rfl | hmem2
      · simp [mapGet, hk]
      · by_cases h0 : strictEq k0 k = true
        · simp [mapGet, h0]
        · simp only [mapGet]
          rw [if_neg (by simpa using h0)]
          exact ih hmem2

/-- `buildNode` never changes the record fields it wraps. -/
theorem buildNode_fields (fuel : Nat) (entries : List (Jval × Obj)) (rootId : Jval)
    (e : Jval × Obj) : (buildNode fuel entries rootId e).fields = e.2 := by
  cases fuel <;> rfl

/-- With an empty expansion set the flattener emits exactly the given nodes
at the given depth, in order. -/
theorem flattenVisibleTree_empty (nodes : List TNode) (depth : Nat) :
    flattenVisibleTree nodes [] depth =
      nodes.map (fun n => (⟨n.fields, depth⟩ : Row)) := by
  induction nodes with
  | nil => simp [flattenVisibleTree]
  | cons n rest ih =>
      obtain ⟨f, c⟩ := n
      simp [flattenVisibleTree, setMem, ih, TNode.fields]

theorem filter_map_comm {α β : Type} (l : List α) (f : α → β) (p : β → Bool) :
    (l.map f).filter p = (l.filter (fun a => p (f a))).map f := by
  induction l with
  | nil => rfl
  | cons a rest ih =>
      by_cases h : p (f a) = true
      · simp [List.filter_cons, h, ih]
      · simp only [List.map_cons, List.filter_cons, h]
        simp only [Bool.false_eq_true, if_false, if_neg]
        simpa using ih

/-- Counterexample for **C6** as stated: a collection consisting of one
orphan record (its `parentId` names an absent id) flattens to one depth-0
row, while the collection has no records with null `parentId` — orphans are
surfaced as extra roots, so the claimed equality fails. -/
theorem flatten_buildTree_orphan_counterexample :
    ((flattenVisibleTree (buildTree [[("id", vstr "a"), ("parentId", vstr "zzz")]] vnull)
        [] 0).map (fun r => (r.fields, r.depth))) ≠
      (([[("id", vstr "a"), ("parentId", vstr "zzz")]].filter
        (fun i => strictEq (getKey i "parentId") vnull)).map (fun i => (i, 0))) := by
  intro h
  rw [show buildTree [[("id", vstr "a"), ("parentId", vstr "zzz")]] vnull =
      [TNode.mk [("id", vstr "a"), ("parentId", vstr "zzz")] []] from rfl,
    flattenVisibleTree_empty] at h
  simp [strictEq, getKey] at h

/-- **C6 (amended).** For record collections with unique string ids whose
non-null parent references all resolve within the collection (the spec's
own invariants — orphans otherwise surface as extra roots), flattening the
built tree with an empty expansion set yields exactly the records with null
`parentId`, in collection order, each at depth 0 and nothing else. -/
theorem flatten_buildTree_empty_expansion {items : List Obj}
    (hids : ∀ i ∈ items, ∃ s, getKey i "id" = vstr s)
    (huniq : items.Pairwise (fun i j => getKey i "id" ≠ getKey j "id"))
    (hclosed : ∀ i ∈ items, getKey i "parentId" = vnull ∨
      ∃ j ∈ items, getKey i "parentId" = getKey j "id") :
    (flattenVisibleTree (buildTree items vnull) [] 0).map (fun r => (r.fields, r.depth)) =
      (items.filter (fun i => strictEq (getKey i "parentId") vnull)).map
        (fun i => (i, 0)) := by
  have hpw : items.Pairwise (fun i j => strictEq (getKey i "id") (getKey j "id") = false) := by
    refine List.Pairwise.imp_of_mem ?_ huniq
    intro a b ha hb hne
    obtain ⟨sa, hsa⟩ := hids a ha
    obtain ⟨sb, hsb⟩ := hids b hb
    rw [hsa, hsb]
    rw [hsa, hsb] at hne
    simp only [strictEq]
    simpa using fun h => hne (by rw [h])
  have hentries : mkEntries items = items.map (fun i => (getKey i "id", i)) :=
    mkEntries_eq_map hpw
  have hroot : ∀ i ∈ items,
      isRoot (mkEntries items) vnull (getKey i "id", i) =
        strictEq (getKey i "parentId") vnull := by
    intro i hi
    unfold isRoot
    cases hp : strictEq (getKey i "parentId") vnull
    · simp only [Bool.false_or]
      rcases hclosed i hi with hnull | ⟨j, hj, heq⟩
      · rw [hnull] at hp
        simp [strictEq] at hp
      · obtain ⟨sj, hsj⟩ := hids j hj
        have hjmem : (getKey j "id", j) ∈ mkEntries items := by
          rw [hentries]
          exact List.mem_map.mpr ⟨j, hj, rfl⟩
        have hsome := mapGet_isSome_of_mem (mkEntries items) (getKey j "id", j)
          (getKey i "parentId") hjmem (by rw [hsj, heq, hsj]; simp [strictEq])
        rw [Option.isSome_iff_exists] at hsome
        obtain ⟨e, he⟩ := hsome
        simp [he]
    · simp
  have hfilter : (mkEntries items).filter (isRoot (mkEntries items) vnull) =
      (items.filter (fun i => strictEq (getKey i "parentId") vnull)).map
        (fun i => (getKey i "id", i)) := by
    conv_lhs => rw [hentries]
    rw [filter_map_comm]
    congr 1
    apply List.filter_congr
    intro i hi
    rw [← hentries]
    exact hroot i hi
  unfold buildTree
  rw [hfilter, flattenVisibleTree_empty]
  simp only [List.map_map]
  apply List.map_congr_left
  intro i _
  simp [Function.comp, buildNode_fields]

/-- Witness for C6's amended theorem: the two-record demo collection
(root "a", child "b") flattens with no expansions to just the root. -/
theorem flatten_buildTree_empty_expansion_witness :
    (flattenVisibleTree (buildTree demoItems vnull) [] 0).map
        (fun r => (r.fields, r.depth)) =
      (demoItems.filter (fun i => strictEq (getKey i "parentId") vnull)).map
        (fun i => (i, 0)) :=
  flatten_buildTree_empty_expansion
    (by
      intro i hi
      simp only [demoItems, List.mem_cons, List.not_mem_nil, or_false] at hi
      rcases hi with rfl | rfl
      · exact ⟨"a", rfl⟩
      · exact ⟨"b", rfl⟩)
    (by
      simp only [demoItems, List.pairwise_cons]
      refine ⟨?_, ?_, ?_⟩
      · intro j hj
        simp only [List.mem_cons, List.not_mem_nil, or_false] at hj
        subst hj
        intro h
        simp [demoA, demoB, getKey] at h
      · intro j hj
        simp at hj
      · simp)
    (by
      intro i hi
      simp only [demoItems, List.mem_cons, List.not_mem_nil, or_false] at hi
      rcases hi with rfl | rfl
      · exact Or.inl rfl
      · exact Or.inr ⟨demoA, by simp [demoItems], rfl⟩)

-- --- Move Planner (NODE_MOVED case of dispatchEvent) ---

/-- `Array.prototype.splice(index, 0, x)`: insert before position `index`,
clamped to the end of the array. -/
def spliceInsert {α : Type} : List α → Nat → α → List α
  | l, 0, x => x :: l
  | [], _ + 1, x => [x]
  | a :: l, n + 1, x => a :: spliceInsert l n x

/-- `rest.map((item, idx) => ...)`: pair every element with its index,
starting from `n`. -/
def enumFrom {α : Type} : Nat → List α → List (Nat × α)
  | _, [] => []
  | n, a :: l => (n, a) :: enumFrom (n + 1) l

/-- The collection with the moved record filtered out (`rest`). -/
def movedRest (rowKey : String) (items : List Obj) (nodeId : Jval) : List Obj :=
  items.filter (fun i => !strictEq (getKey i rowKey) nodeId)

/-- `siblingsIndices`: the records of `rest` whose `parentId` strictly
equals the move's `newParentId`, each with its global index in `rest`. -/
def siblingsIndices (rest : List Obj) (newParentId : Jval) : List (Nat × Obj) :=
  (enumFrom 0 rest).filter (fun x => strictEq (getKey x.2 "parentId") newParentId)

/-- `insertIndex`: past the last sibling when `newIndex` reaches the
sibling count, otherwise the global index of the `newIndex`-th sibling. -/
def insertIndexOf (sibs : List (Nat × Obj)) (newIndex : Nat) : Nat :=
  if sibs.length ≤ newIndex then (sibs.getD (sibs.length - 1) (0, [])).1 + 1
  else (sibs.getD newIndex (0, [])).1

/-- The `NODE_MOVED` case of `dispatchEvent`: locate the moved record (no-op
when absent), remove it, reparent it, then either append it (no siblings
under the new parent) or splice it in before/after the computed sibling
position.  `newIndex` is the payload's numeric index (non-negative in every
dispatched intent; a negative index would crash the source on an undefined
element access). -/
def applyNodeMoved (rowKey : String) (items : List Obj) (nodeId newParentId : Jval)
    (newIndex : Nat) : List Obj :=
  match items.find? (fun i => strictEq (getKey i rowKey) nodeId) with
  | none => items
  | some movedItem =>
      if (siblingsIndices (movedRest rowKey items nodeId) newParentId).length = 0 then
        movedRest rowKey items nodeId ++ [setKey movedItem "parentId" newParentId]
      else
        spliceInsert (movedRest rowKey items nodeId)
          (insertIndexOf (siblingsIndices (movedRest rowKey items nodeId) newParentId)
            newIndex)
          (setKey movedItem "parentId" newParentId)

/-- A dispatched move: exactly one `NODE_MOVED` event plus the optimistic
transformation. -/
def dispatchNodeMoved (rowKey : String) (items : List Obj) (nodeId newParentId : Jval)
    (newIndex : Nat) : List Event × List Obj :=
  ([⟨EventType.NODE_MOVED,
      [("nodeId", nodeId), ("newParentId", newParentId), ("newIndex", vnum newIndex)]⟩],
   applyNodeMoved rowKey items nodeId newParentId newIndex)

-- List helper lemmas for the move analysis.

theorem find?_append_none {α : Type} {p : α → Bool} {l1 l2 : List α}
    (h : ∀ x ∈ l1, p x = false) : (l1 ++ l2).find? p = l2.find? p := by
  induction l1 with
  | nil => rfl
  | cons a rest ih =>
      have ha : p a = false := h a (List.mem_cons_self _ _)
      simp only [List.cons_append, List.find?_cons, ha]
      exact ih (fun x hx => h x (List.mem_cons_of_mem _ hx))

theorem filter_all_keep {α : Type} (p : α → Bool) (l : List α)
    (h : ∀ x ∈ l, p x = true) : l.filter p = l := by
  induction l with
  | nil => rfl
  | cons a rest ih =>
      rw [List.filter_cons, if_pos (h a (List.mem_cons_self _ _))]
      rw [ih (fun x hx => h x (List.mem_cons_of_mem _ hx))]

theorem enumFrom_append {α : Type} (l1 l2 : List α) :
    ∀ n, enumFrom n (l1 ++ l2) = enumFrom n l1 ++ enumFrom (n + l1.length) l2 := by
  induction l1 with
  | nil => intro n; simp [enumFrom]
  | cons a rest ih =>
      intro n
      simp only [List.cons_append, enumFrom, List.length_cons, List.append_eq]
      rw [ih (n + 1)]
      have h2 : n + 1 + rest.length = n + (rest.length + 1) := by omega
      rw [h2]

theorem enumFilter_nil {α : Type} (q : α → Bool) (l : List α)
    (h : ∀ x ∈ l, q x = false) :
    ∀ n, (enumFrom n l).filter (fun x => q x.2) = [] := by
  induction l with
  | nil => intro n; rfl
  | cons a rest ih =>
      intro n
      simp only [enumFrom, List.filter_cons]
      rw [if_neg (by simp [h a (List.mem_cons_self _ _)])]
      exact ih (fun x hx => h x (List.mem_cons_of_mem _ hx)) (n + 1)

theorem enumFilter_length {α : Type} (q : α → Bool) (l : List α) :
    ∀ n, ((enumFrom n l).filter (fun x => q x.2)).length = (l.filter q).length := by
  induction l with
  | nil => intro n; rfl
  | cons a rest ih =>
      intro n
      simp only [enumFrom, List.filter_cons]
      cases hq : q a
      · simp only [Bool.false_eq_true, if_false, if_neg]
        exact ih (n + 1)
      · simp only [if_pos, List.length_cons, ih (n + 1)]

theorem getD_append_length {α : Type} (A : List α) (y : α) (B : List α) (d : α) :
    (A ++ y :: B).getD A.length d = y := by
  induction A with
  | nil => rfl
  | cons a rest ih => simpa [List.getD] using ih

theorem spliceInsert_at_length {α : Type} (l1 l2 : List α) (x : α) :
    spliceInsert (l1 ++ l2) l1.length x = l1 ++ x :: l2 := by
  induction l1 with
  | nil => cases l2 <;> rfl
  | cons a rest ih => simp [spliceInsert, ih]

/-- Core of C2's amended claim: moving record `N` (unique string id, sited
between `pre` and `post`) to its current parent at its current sibling
index reproduces the collection byte-for-byte exactly when `N` touches its
sibling block — the next record is a sibling, or no later sibling exists
and the previous record is a sibling, or `N`'s parent has no other child
and `N` is the last record.  (The counterexample below shows the equality
fails without this proviso.) -/
theorem applyNodeMoved_current_position (pre post : List Obj) (N : Obj) (s : String)
    (hid : getKey N "id" = vstr s)
    (hpre : ∀ i ∈ pre, strictEq (getKey i "id") (vstr s) = false)
    (hpost : ∀ i ∈ post, strictEq (getKey i "id") (vstr s) = false)
    (hpar : hasKey N "parentId" = true)
    (hcase :
      (∃ q post2, post = q :: post2 ∧
        strictEq (getKey q "parentId") (getKey N "parentId") = true) ∨
      ((∀ x ∈ post, strictEq (getKey x "parentId") (getKey N "parentId") = false) ∧
        ∃ pre2 q, pre = pre2 ++ [q] ∧
          strictEq (getKey q "parentId") (getKey N "parentId") = true) ∨
      ((∀ x ∈ post, strictEq (getKey x "parentId") (getKey N "parentId") = false) ∧
        (∀ x ∈ pre, strictEq (getKey x "parentId") (getKey N "parentId") = false) ∧
        post = [])) :
    applyNodeMoved "id" (pre ++ N :: post) (vstr s) (getKey N "parentId")
      ((pre.filter (fun i =>
        strictEq (getKey i "parentId") (getKey N "parentId"))).length) =
      pre ++ N :: post := by
  have hpredN : strictEq (getKey N "id") (vstr s) = true := by
    rw [hid]; simp [strictEq]
  have hfind : (pre ++ N :: post).find?
      (fun i => strictEq (getKey i "id") (vstr s)) = some N := by
    rw [find?_append_none hpre]
    simp [List.find?_cons, hpredN]
  have hrest : movedRest "id" (pre ++ N :: post) (vstr s) = pre ++ post := by
    unfold movedRest
    rw [List.filter_append]
    rw [filter_all_keep _ pre (fun x hx => by simp [hpre x hx])]
    rw [List.filter_cons]
    rw [if_neg (by simp [hpredN])]
    rw [filter_all_keep _ post (fun x hx => by simp [hpost x hx])]
  have hupd : setKey N "parentId" (getKey N "parentId") = N :=
    setKey_getKey_self N "parentId" hpar
  have hsplit : siblingsIndices (pre ++ post) (getKey N "parentId") =
      (enumFrom 0 pre).filter
        (fun x => strictEq (getKey x.2 "parentId") (getKey N "parentId")) ++
      (enumFrom pre.length post).filter
        (fun x => strictEq (getKey x.2 "parentId") (getKey N "parentId")) := by
    unfold siblingsIndices
    rw [enumFrom_append, List.filter_append]
    simp
  have hkA : ((enumFrom 0 pre).filter
      (fun x => strictEq (getKey x.2 "parentId") (getKey N "parentId"))).length =
      (pre.filter (fun i =>
        strictEq (getKey i "parentId") (getKey N "parentId"))).length :=
    enumFilter_length (fun i =>
      strictEq (getKey i "parentId") (getKey N "parentId")) pre 0
  simp only [applyNodeMoved, hfind, hrest, hupd]
  rcases hcase with ⟨q, post2, rfl, hq⟩ | ⟨hpostf, pre2, q, rfl, hq⟩ | ⟨hpostf, hpref, rfl⟩
  · -- Case: the record right after N is a sibling.
    have hS : siblingsIndices (pre ++ q :: post2) (getKey N "parentId") =
        (enumFrom 0 pre).filter
          (fun x => strictEq (getKey x.2 "parentId") (getKey N "parentId")) ++
        (pre.length, q) :: (enumFrom (pre.length + 1) post2).filter
          (fun x => strictEq (getKey x.2 "parentId") (getKey N "parentId")) := by
      rw [hsplit]
      congr 1
      simp only [enumFrom, List.filter_cons]
      rw [if_pos hq]
    rw [if_neg (by rw [hS]; simp)]
    have hins : insertIndexOf
        (siblingsIndices (pre ++ q :: post2) (getKey N "parentId"))
        ((pre.filter (fun i =>
          strictEq (getKey i "parentId") (getKey N "parentId"))).length) =
        pre.length := by
      unfold insertIndexOf
      rw [hS]
      rw [if_neg (by
        simp only [List.length_append, List.length_cons]
        omega)]
      rw [← hkA, getD_append_length]
    rw [hins]
    exact spliceInsert_at_length pre (q :: post2) N
  · -- Case: no later sibling; the record right before N is a sibling.
    have hBnil : (enumFrom (pre2 ++ [q]).length post).filter
        (fun x => strictEq (getKey x.2 "parentId") (getKey N "parentId")) = [] :=
      enumFilter_nil (fun i =>
        strictEq (getKey i "parentId") (getKey N "parentId")) post hpostf _
    have hA : (enumFrom 0 (pre2 ++ [q])).filter
        (fun x => strictEq (getKey x.2 "parentId") (getKey N "parentId")) =
        (enumFrom 0 pre2).filter
          (fun x => strictEq (getKey x.2 "parentId") (getKey N "parentId")) ++
        [(pre2.length, q)] := by
      rw [enumFrom_append, List.filter_append]
      congr 1
      simp only [enumFrom, List.filter_cons]
      rw [if_pos hq]
      simp
    have hS : siblingsIndices (pre2 ++ [q] ++ post) (getKey N "parentId") =
        (enumFrom 0 pre2).filter
          (fun x => strictEq (getKey x.2 "parentId") (getKey N "parentId")) ++
        [(pre2.length, q)] := by
      rw [hsplit, hBnil, hA]
      simp
    have hk : ((pre2 ++ [q]).filter (fun i =>
        strictEq (getKey i "parentId") (getKey N "parentId"))).length =
        (pre2.filter (fun i =>
          strictEq (getKey i "parentId") (getKey N "parentId"))).length + 1 := by
      rw [List.filter_append, List.length_append]
      simp [List.filter_cons, hq]
    have hkA2 : ((enumFrom 0 pre2).filter
        (fun x => strictEq (getKey x.2 "parentId") (getKey N "parentId"))).length =
        (pre2.filter (fun i =>
          strictEq (getKey i "parentId") (getKey N "parentId"))).length :=
      enumFilter_length (fun i =>
        strictEq (getKey i "parentId") (getKey N "parentId")) pre2 0
    rw [if_neg (by rw [hS]; simp)]
    have hins : insertIndexOf
        (siblingsIndices (pre2 ++ [q] ++ post) (getKey N "parentId"))
        (((pre2 ++ [q]).filter (fun i =>
          strictEq (getKey i "parentId") (getKey N "parentId"))).length) =
        (pre2 ++ [q]).length := by
      unfold insertIndexOf
      rw [hS, hk]
      rw [if_pos (by
        simp only [List.length_append, List.length_cons, List.length_nil, hkA2]
        omega)]
      have hidx : ((enumFrom 0 pre2).filter
          (fun x => strictEq (getKey x.2 "parentId") (getKey N "parentId")) ++
          [(pre2.length, q)]).length - 1 =
          ((enumFrom 0 pre2).filter
            (fun x => strictEq (getKey x.2 "parentId") (getKey N "parentId"))).length := by
        simp
      rw [hidx, getD_append_length]
      simp
    rw [hins]
    exact spliceInsert_at_length (pre2 ++ [q]) post N
  · -- Case: N is its parent's only child and the last record.
    have hAnil : (enumFrom 0 pre).filter
        (fun x => strictEq (getKey x.2 "parentId") (getKey N "parentId")) = [] :=
      enumFilter_nil (fun i =>
        strictEq (getKey i "parentId") (getKey N "parentId")) pre hpref 0
    rw [if_pos (by rw [hsplit, hAnil]; simp [enumFrom])]
    simp

/-- Counterexample for **C2** as stated: in the collection
`[demoA (root), demoB (child of "a")]`, moving `demoA` to its current
parent (`null`) at its current sibling index (0) does not reproduce the
flat order — the reducer appends the reparented record after `rest`, giving
`[demoB, demoA]`. -/
theorem applyNodeMoved_current_position_counterexample :
    getKey demoA "parentId" = vnull ∧
    applyNodeMoved "id" [demoA, demoB] (vstr "a") vnull 0 ≠ [demoA, demoB] := by
  refine ⟨rfl, ?_⟩
  intro h
  rw [show applyNodeMoved "id" [demoA, demoB] (vstr "a") vnull 0 = [demoB, demoA] from by
    simp [applyNodeMoved, movedRest, siblingsIndices, enumFrom, demoA, demoB,
      strictEq, getKey, setKey]] at h
  simp [demoA, demoB] at h

/-- **C2 (amended).** Moving `N` to its current parent at its current
sibling index emits exactly one move event, and reproduces the collection
byte-for-byte under the adjacency proviso of
`applyNodeMoved_current_position` (N's sibling block is adjacent to it; in
particular whenever the collection groups siblings contiguously).  Without
the proviso the flat order can change, as the counterexample shows. -/
theorem dispatchNodeMoved_current_position (pre post : List Obj) (N : Obj) (s : String)
    (hid : getKey N "id" = vstr s)
    (hpre : ∀ i ∈ pre, strictEq (getKey i "id") (vstr s) = false)
    (hpost : ∀ i ∈ post, strictEq (getKey i "id") (vstr s) = false)
    (hpar : hasKey N "parentId" = true)
    (hcase :
      (∃ q post2, post = q :: post2 ∧
        strictEq (getKey q "parentId") (getKey N "parentId") = true) ∨
      ((∀ x ∈ post, strictEq (getKey x "parentId") (getKey N "parentId") = false) ∧
        ∃ pre2 q, pre = pre2 ++ [q] ∧
          strictEq (getKey q "parentId") (getKey N "parentId") = true) ∨
      ((∀ x ∈ post, strictEq (getKey x "parentId") (getKey N "parentId") = false) ∧
        (∀ x ∈ pre, strictEq (getKey x "parentId") (getKey N "parentId") = false) ∧
        post = [])) :
    (dispatchNodeMoved "id" (pre ++ N :: post) (vstr s) (getKey N "parentId")
      ((pre.filter (fun i =>
        strictEq (getKey i "parentId") (getKey N "parentId"))).length)).2 =
      pre ++ N :: post ∧
    (dispatchNodeMoved "id" (pre ++ N :: post) (vstr s) (getKey N "parentId")
      ((pre.filter (fun i =>
        strictEq (getKey i "parentId") (getKey N "parentId"))).length)).1.length = 1 :=
  ⟨applyNodeMoved_current_position pre post N s hid hpre hpost hpar hcase, rfl⟩

/-- Witness for C2's amended theorem: moving the first of two roots to its
own position is an exact no-op on the collection. -/
theorem dispatchNodeMoved_current_position_witness :
    (dispatchNodeMoved "id" ([] ++ [("id", vstr "a"), ("parentId", vnull)] ::
        [[("id", vstr "b"), ("parentId", vnull)]]) (vstr "a")
      (getKey [("id", vstr "a"), ("parentId", vnull)] "parentId")
      (([].filter (fun i => strictEq (getKey i "parentId")
        (getKey [("id", vstr "a"), ("parentId", vnull)] "parentId"))).length)).2 =
      [] ++ [("id", vstr "a"), ("parentId", vnull)] ::
        [[("id", vstr "b"), ("parentId", vnull)]] :=
  (dispatchNodeMoved_current_position []
    [[("id", vstr "b"), ("parentId", vnull)]]
    [("id", vstr "a"), ("parentId", vnull)] "a" rfl
    (by intro i hi; simp at hi)
    (by
      intro i hi
      simp only [List.mem_cons, List.not_mem_nil, or_false] at hi
      subst hi
      rfl)
    rfl
    (Or.inl ⟨[("id", vstr "b"), ("parentId", vnull)], [], rfl, rfl⟩)).1

-- --- Drag-over cycle guard (handleDragOver, TreeTableSheet.tsx) ---

/-- The three drop zones of the Drop-Zone Classifier. -/
inductive DropPos : Type where
  | before : DropPos
  | inside : DropPos
  | after : DropPos
deriving Repr, DecidableEq

/-- The drag-interaction state of the sheet: the dragged row's id, the
current drop target and the classified drop position. -/
structure DragState : Type where
  draggedId : Option String
  dropTargetId : Option String
  dropPosition : Option DropPos
deriving Repr, DecidableEq

/-- `handleDragOver`: bail out (state unchanged) when nothing is dragged
(`!draggedId` is JavaScript truthiness, so an empty-string id also bails),
when hovering the dragged row itself, or when the hovered target is among
the dragged node's descendants (the cycle guard); otherwise classify the
pointer offset into before / inside / after and set the drop target.
Pointer offset and row height are modeled as rationals (the claims never
touch the zone boundaries, where IEEE doubles could differ). -/
def handleDragOver (fuel : Nat) (items : List Obj) (st : DragState)
    (targetId : String) (y height : ℚ) : DragState :=
  match st.draggedId with
  | none => st
  | some dragged =>
      if dragged = "" then st
      else if dragged = targetId then st
      else if (findAllDescendants fuel items (vstr dragged)).any
          (fun a => strictEq a (vstr targetId)) then st
      else if y < 35 / 100 * height then
        DragState.mk st.draggedId (some targetId) (some DropPos.before)
      else if 65 / 100 * height < y then
        DragState.mk st.draggedId (some targetId) (some DropPos.after)
      else
        DragState.mk st.draggedId (some targetId) (some DropPos.inside)

/-- Counterexample for **C1** as stated: "b" is a descendant of "a" (per
the Descendant Resolver), yet the reducer applies the move intent
`{nodeId: "a", newParentId: "b"}` — the collection changes, reparenting the
root beneath its own child instead of leaving the collection unchanged. -/
theorem applyNodeMoved_descendant_counterexample :
    (findAllDescendants 1 demoItems (vstr "a")).any
      (fun x => strictEq x (vstr "b")) = true ∧
    applyNodeMoved "id" demoItems (vstr "a") (vstr "b") 0 ≠ demoItems := by
  refine ⟨rfl, ?_⟩
  intro h
  rw [show applyNodeMoved "id" demoItems (vstr "a") (vstr "b") 0 =
      [demoB, [("id", vstr "a"), ("parentId", vstr "b")]] from by
    simp [applyNodeMoved, movedRest, siblingsIndices, enumFrom, demoItems,
      demoA, demoB, strictEq, getKey, setKey]] at h
  simp [demoItems, demoA, demoB] at h

/-- **C1 (amended).** The cycle check lives in the drag-over handler, not
in the reducer: whenever the hovered target is reported by the Descendant
Resolver as a descendant of the dragged node, `handleDragOver` leaves the
drag state (drop target and drop position) entirely unchanged, so the
interactive flow assigns no drop position on such a target; the reducer
itself, however, applies any move intent it receives — a directly
dispatched move into a descendant does mutate the collection (see the
counterexample). -/
theorem handleDragOver_descendant_guard (fuel : Nat) (items : List Obj)
    (st : DragState) (targetId dragged : String) (y height : ℚ)
    (hdrag : st.draggedId = some dragged)
    (hdesc : (findAllDescendants fuel items (vstr dragged)).any
      (fun a => strictEq a (vstr targetId)) = true) :
    handleDragOver fuel items st targetId y height = st := by
  simp only [handleDragOver, hdrag]
  by_cases h0 : dragged = ""
  · simp [h0]
  · rw [if_neg h0]
    by_cases h1 : dragged = targetId
    · rw [if_pos h1]
    · rw [if_neg h1, if_pos hdesc]

/-- Witness for C1's amended theorem: dragging "a" over its descendant "b"
leaves the concrete drag state untouched. -/
theorem handleDragOver_descendant_guard_witness :
    handleDragOver 1 demoItems (DragState.mk (some "a") none none) "b" 0 1 =
      DragState.mk (some "a") none none :=
  handleDragOver_descendant_guard 1 demoItems
    (DragState.mk (some "a") none none) "b" "a" 0 1 rfl rfl

/-- **C5.** Reading a dotted path back from the result of `setByPath`
yields exactly the written value, for every record, path and value,
including paths whose intermediate segments traverse nested objects:
`getByPath (setByPath r p v) p = v`.  The embedding is pure, so `setByPath`
returning a fresh record that leaves the original untouched is intrinsic. -/
theorem getByPath_setByPath (r : Jval) (path : String) (v : Jval) :
    getByPath (setByPath r path v) path = v := by
  unfold getByPath setByPath
  exact getFold_setParts (splitDot path) (spreadFields r) v (splitDot_ne_nil path)

end TT
